import Mathlib

/-!
Shallow embedding of the Document Edit and Annotation Engine of this
repository (handlers `text_handler.py`, `revision_handler.py`,
`table_handler.py`), together with proofs about the embedded operations.

Python strings are modelled as lists of characters (`Str`); the Python
builtins used by the handlers (`str.find`, `str.replace`, `in`,
`str.lower`, `re.subn` on an escaped literal pattern with optional
word-boundary anchors) are embedded as executable Lean functions.
Character classes (`isalnum`, the regex word class) are modelled on
their ASCII behaviour via `Char.isAlphanum`.  Loops whose index jumps
forward are written with an explicit fuel argument that is always given
at least the loop's iteration bound, so every definition is structural
and computable.

Stateful handler methods become functions `Engine → Except Err α × Engine`:
the returned engine reflects every mutation performed before a raised
exception, so partial mutation followed by an exception is representable
exactly as in the Python code.
-/

namespace Docx

/-- Python `str`, modelled as its list of characters. -/
abbrev Str := List Char

/-- Convenience conversion from a Lean string literal to `Str`. -/
def str (s : String) : Str := s.data

/-- Python `str.lower`, character by character (ASCII behaviour). -/
def strLower (s : Str) : Str := s.map Char.toLower

/-- Whether `a` is an initial segment of `s` (used to model substring
tests at a position, as Python slicing comparisons do). -/
def strStartsWith : Str → Str → Bool
  | [], _ => true
  | _ :: _, [] => false
  | a :: as, b :: bs => a == b && strStartsWith as bs

/-- Python `sub in text`: some position of `text` starts with `sub`. -/
def strContains (text sub : Str) : Bool :=
  (List.range (text.length + 1)).any (fun i => strStartsWith sub (text.drop i))

/-- Python `str.find(search, start)`: the least position at or after
`start` where `search` occurs, or `none` for Python's `-1`. -/
def strFind (text search : Str) (start : Nat) : Option Nat :=
  (List.range (text.length + 1)).find?
    (fun i => decide (start ≤ i) && strStartsWith search (text.drop i))

/-- Fuel-indexed core of Python `str.replace(a, b)`: the left-to-right
greedy scan that substitutes every non-overlapping occurrence of `a` by
`b` (for an empty `a`, Python inserts `b` around every character).  The
fuel only bounds the recursion; `pyReplace` supplies enough of it. -/
def pyReplaceF (a b : Str) : Nat → Str → Str
  | 0, s => s
  | fuel + 1, s =>
    if a.isEmpty then
      match s with
      | [] => b
      | c :: rest => b ++ c :: pyReplaceF a b fuel rest
    else if strStartsWith a s then
      b ++ pyReplaceF a b fuel (s.drop a.length)
    else
      match s with
      | [] => []
      | c :: rest => c :: pyReplaceF a b fuel rest

/-- Python `s.replace(a, b)`. -/
def pyReplace (a b s : Str) : Str := pyReplaceF a b (s.length + 1) s

/-- The regex word class `\w` as the handlers exercise it (ASCII). -/
def isWordChar (c : Char) : Bool := c.isAlphanum || c == '_'

/-- Whether the character at position `j` of `text` is a word character
(out-of-range positions count as non-word). -/
def wordAt (text : Str) (j : Nat) : Bool :=
  match text[j]? with
  | some c => isWordChar c
  | none => false

/-- The regex anchor at position `j` of `text`: a word boundary sits
between a word character and a non-word character (or the string edge). -/
def boundaryAt (text : Str) (j : Nat) : Bool :=
  (if j == 0 then false else wordAt text (j - 1)) != wordAt text j

/-- Whether the case-insensitive literal pattern for `find` (wrapped in
word-boundary anchors when `ww` is set) matches `text` at position `i`,
as `re.IGNORECASE` matching of the escaped pattern does. -/
def ciMatchesAt (find text : Str) (ww : Bool) (i : Nat) : Bool :=
  strStartsWith (strLower find) ((strLower text).drop i) &&
    (!ww || (boundaryAt text i && boundaryAt text (i + find.length)))

/-- Fuel-indexed scan of `re.subn(pattern, repl, text)` for the escaped
literal pattern built by `replace_text`'s case-insensitive branch: walk
the positions of `text` left to right, substitute `repl` at each match
and count it, else copy one character.  Only defined for a non-empty
`find` (the handlers never build an empty pattern); the fuel only bounds
the recursion and `reSubnCI` supplies enough of it. -/
def subnPosF (find repl text : Str) (ww : Bool) : Nat → Nat → Str × Nat
  | 0, i => (text.drop i, 0)
  | fuel + 1, i =>
    if !find.isEmpty && ciMatchesAt find text ww i then
      let r := subnPosF find repl text ww fuel (i + find.length)
      (repl ++ r.1, r.2 + 1)
    else
      match text[i]? with
      | some c =>
        let r := subnPosF find repl text ww fuel (i + 1)
        (c :: r.1, r.2)
      | none => ([], 0)

/-- `re.subn` of the case-insensitive escaped pattern over `text`:
the new text and the number of substitutions. -/
def reSubnCI (find repl : Str) (ww : Bool) (text : Str) : Str × Nat :=
  subnPosF find repl text ww (text.length + 1) 0

/-- The positions the scan of `reSubnCI` matches at (specification of
"the individual occurrences replaced"), same fuel discipline. -/
def ciOccPosF (find text : Str) (ww : Bool) : Nat → Nat → List Nat
  | 0, _ => []
  | fuel + 1, i =>
    if !find.isEmpty && ciMatchesAt find text ww i then
      i :: ciOccPosF find text ww fuel (i + find.length)
    else if i < text.length then ciOccPosF find text ww fuel (i + 1)
    else []

/-- The list of match positions of the case-insensitive scan. -/
def ciOccurrences (find : Str) (ww : Bool) (text : Str) : List Nat :=
  ciOccPosF find text ww (text.length + 1) 0

/-- How many individual occurrences the case-insensitive scan replaces. -/
def ciOccCount (find : Str) (ww : Bool) (text : Str) : Nat :=
  (ciOccurrences find ww text).length

/-- Python `ch.isalnum()` on an optional character (ASCII behaviour);
`none` stands for an out-of-range access that the handlers guard. -/
def isalnumOpt : Option Char → Bool
  | some c => c.isAlphanum
  | none => false

/-- Truthiness of an optional string, as Python `if x:` sees it:
false for `None` and for the empty string. -/
def truthyStr : Option Str → Bool
  | some s => !s.isEmpty
  | none => false

/-- Text alignment values accepted by the text handler. -/
inductive Alignment
  | left
  | center
  | right
  | justify
  | distribute
deriving Repr, DecidableEq

/-- A run of a paragraph: text plus its direct formatting, tri-state
attributes as `Option Bool` (`none` = unset in the document). -/
structure Run where
  text : Str
  bold : Option Bool := none
  italic : Option Bool := none
  underline : Option Bool := none
  strike : Option Bool := none
  fontName : Option Str := none
  fontSize : Option Nat := none
  color : Option Str := none
  superscript : Option Bool := none
  subscript : Option Bool := none
deriving Repr, DecidableEq

/-- A paragraph: its ordered runs, optional style name and alignment. -/
structure Paragraph where
  runs : List Run
  style : Option Str := none
  alignment : Option Alignment := none
deriving Repr, DecidableEq

/-- `paragraph.text` of python-docx: the concatenation of the runs. -/
def Paragraph.text (p : Paragraph) : Str := (p.runs.map Run.text).flatten

/-- A table: its grid of cell texts, its column count, optional style,
and the record of merges applied through the library (the library's
span bookkeeping is external; the engine only issues the merge). -/
structure Table where
  grid : List (List Str)
  cols : Nat
  style : Option Str := none
  merges : List (Nat × Nat × Nat × Nat) := []
deriving Repr, DecidableEq

/-- The revision actions of `src/core/enums.py`. -/
inductive RevisionAction
  | insert
  | delete
  | format
  | move
  | replace
deriving Repr, DecidableEq

/-- A recorded revision, the dictionary built by `add_revision`. -/
structure Revision where
  id : Nat
  action : RevisionAction
  author : Str
  paragraphIndex : Nat
  originalContent : Option Str := none
  newContent : Option Str := none
  isAccepted : Bool := false
  isRejected : Bool := false
  createdAt : Nat := 0
  acceptedAt : Option Nat := none
  acceptedBy : Option Str := none
deriving Repr, DecidableEq

/-- The error conditions the embedded handlers can raise:
`ValidationError` of `src/core/exceptions.py` with its message, and
Python's `IndexError` from an unguarded list subscript. -/
inductive Err
  | validationError (msg : String)
  | indexError
deriving Repr, DecidableEq

/-- The engine state: the loaded document's paragraphs and tables (the
python-docx `Document` shared by the handlers) plus the revision
handler's own `_revisions`, `_next_id` and `_tracking_enabled`, and a
logical clock standing in for `datetime.now()`. -/
structure Engine where
  paragraphs : List Paragraph
  tables : List Table
  revisions : List Revision
  nextId : Nat
  trackingEnabled : Bool := false
  clock : Nat := 0
deriving Repr, DecidableEq

/-- Replace the paragraph at `i` (used to model in-place mutation of the
python-docx paragraph object held by the handlers). -/
def setPara (s : Engine) (i : Nat) (p : Paragraph) : Engine :=
  { s with paragraphs := s.paragraphs.set i p }

/-- Update the first element satisfying `p` (Python mutates the first
matching dictionary that `get_revision` returned by reference). -/
def updateFirst (p : α → Bool) (f : α → α) : List α → List α
  | [] => []
  | x :: xs => if p x then f x :: xs else x :: updateFirst p f xs

/-- The run DTO of `src/models/dto.py` as `get_paragraph` fills it
(`run.bold or False` collapses unset formatting to `false`). -/
structure RunDTO where
  text : Str
  bold : Bool
  italic : Bool
  underline : Bool
  font_name : Option Str
  font_size : Option Nat
  color : Option Str
deriving Repr, DecidableEq

/-- The paragraph DTO returned by `get_paragraph`. -/
structure ParagraphDTO where
  index : Nat
  text : Str
  style : Option Str
  alignment : Option Alignment
  runs : List RunDTO
deriving Repr, DecidableEq

/-- The DTO for one run. -/
def runDTO (r : Run) : RunDTO :=
  { text := r.text
    bold := r.bold.getD false
    italic := r.italic.getD false
    underline := r.underline.getD false
    font_name := r.fontName
    font_size := r.fontSize
    color := r.color }

/-- `TextHandler.get_paragraph`: validate the index, then build the DTO. -/
def get_paragraph (s : Engine) (index : Int) : Except Err ParagraphDTO :=
  if index < 0 || (s.paragraphs.length : Int) ≤ index then
    .error (.validationError ("Paragraph index " ++ toString index ++
      " out of range (0-" ++ toString ((s.paragraphs.length : Int) - 1) ++ ")"))
  else
    match s.paragraphs[index.toNat]? with
    | some para =>
      .ok { index := index.toNat
            text := para.text
            style := para.style
            alignment := para.alignment
            runs := para.runs.map runDTO }
    | none => .error .indexError

/-- `TextHandler.add_paragraph`: append through `document.add_paragraph`
(the library adds a run only for non-empty text) and return the new last
index. -/
def add_paragraph (s : Engine) (text : Str) (style : Option Str)
    (alignment : Option Alignment) : Except Err Int × Engine :=
  let p : Paragraph :=
    { runs := if text.isEmpty then [] else [{ text := text }]
      style := style
      alignment := alignment }
  let ps := s.paragraphs ++ [p]
  (.ok ((ps.length : Int) - 1), { s with paragraphs := ps })

/-- The tail of `insert_paragraph`'s body: `if style:` (Python
truthiness) sets the style, `if alignment:` (enum instances are always
truthy) sets the alignment; the runs are untouched. -/
def applyParaFmt (p : Paragraph) (style : Option Str)
    (alignment : Option Alignment) : Paragraph :=
  let p2 := if truthyStr style then { p with style := style } else p
  match alignment with
  | some a => { p2 with alignment := some a }
  | none => p2

/-- `TextHandler.insert_paragraph`: index in `[0, len]` or
`ValidationError`; appending at `len` delegates to `add_paragraph`,
otherwise a fresh empty paragraph element is inserted before the target
and receives a run with the text, then style and alignment per
`applyParaFmt`. -/
def insert_paragraph (s : Engine) (index : Int) (text : Str)
    (style : Option Str) (alignment : Option Alignment) :
    Except Err Int × Engine :=
  if index < 0 || (s.paragraphs.length : Int) < index then
    (.error (.validationError
      ("Index " ++ toString index ++ " out of range (0-" ++
        toString s.paragraphs.length ++ ")")), s)
  else if index == (s.paragraphs.length : Int) then
    add_paragraph s text style alignment
  else
    let k := index.toNat
    let s1 := { s with paragraphs :=
      s.paragraphs.insertIdx k { runs := [], style := none, alignment := none } }
    match s1.paragraphs[k]? with
    | none => (.error .indexError, s1)
    | some p =>
      let p3 := applyParaFmt { p with runs := p.runs ++ [{ text := text }] }
        style alignment
      (.ok index, { s1 with paragraphs := s1.paragraphs.set k p3 })

/-- `TextHandler.delete_paragraph`: validate the index, then remove the
element; later paragraphs shift down by one. -/
def delete_paragraph (s : Engine) (index : Int) : Except Err Unit × Engine :=
  if index < 0 || (s.paragraphs.length : Int) ≤ index then
    (.error (.validationError ("Paragraph index " ++ toString index ++
      " out of range (0-" ++ toString ((s.paragraphs.length : Int) - 1) ++ ")")), s)
  else
    (.ok (), { s with paragraphs := s.paragraphs.eraseIdx index.toNat })

/-- One found occurrence, the dictionary `find_text` appends. -/
structure TextMatch where
  paragraph_index : Nat
  offset : Nat
  length : Nat
  text : Str
deriving Repr, DecidableEq

/-- The `while True` scan of `find_text` over one paragraph's
(case-normalised) text: `str.find` from `start`, the whole-word test on
the neighbouring characters, and `start = pos + 1` after every found
position.  `fuel` only bounds the recursion (`start` strictly increases
and is bounded by the text length); `find_text` supplies enough of it. -/
def findLoopF (text search : Str) (ww : Bool) : Nat → Nat → List Nat
  | 0, _ => []
  | fuel + 1, start =>
    match strFind text search start with
    | none => []
    | some pos =>
      let before := pos == 0 || !isalnumOpt text[pos - 1]?
      let after :=
        decide (text.length ≤ pos + search.length) ||
          !isalnumOpt text[pos + search.length]?
      if ww && !(before && after) then
        findLoopF text search ww fuel (pos + 1)
      else
        pos :: findLoopF text search ww fuel (pos + 1)

/-- `TextHandler.find_text`: scan every paragraph's text (lower-cased
unless `case_sensitive`) and report each accepted position with the
original text slice of the search string's length. -/
def find_text (s : Engine) (search_text : Str)
    (case_sensitive whole_word : Bool) : List TextMatch :=
  let search := if case_sensitive then search_text else strLower search_text
  s.paragraphs.enum.flatMap fun pr =>
    let text := if case_sensitive then pr.2.text else strLower pr.2.text
    (findLoopF text search whole_word (text.length + 2) 0).map fun pos =>
      { paragraph_index := pr.1
        offset := pos
        length := search_text.length
        text := (pr.2.text.drop pos).take search_text.length }

/-- The body of `replace_text` for one run: the case-sensitive branch
tests `find in run.text` and counts one per touched run; the other
branch tests the lower-cased containment and applies the
case-insensitive regex substitution, counting every substitution. -/
def replaceRun (find repl : Str) (cs ww : Bool) (r : Run) : Run × Nat :=
  if cs then
    if strContains r.text find then
      ({ r with text := pyReplace find repl r.text }, 1)
    else (r, 0)
  else
    if strContains (strLower r.text) (strLower find) then
      let res := reSubnCI find repl ww r.text
      ({ r with text := res.1 }, res.2)
    else (r, 0)

/-- The inner loop of `replace_text` over a paragraph's runs. -/
def replaceRuns (find repl : Str) (cs ww : Bool) : List Run → List Run × Nat
  | [] => ([], 0)
  | r :: rs =>
    let h := replaceRun find repl cs ww r
    let t := replaceRuns find repl cs ww rs
    (h.1 :: t.1, h.2 + t.2)

/-- The outer loop of `replace_text` over the paragraphs. -/
def replaceParas (find repl : Str) (cs ww : Bool) :
    List Paragraph → List Paragraph × Nat
  | [] => ([], 0)
  | p :: ps =>
    let h := replaceRuns find repl cs ww p.runs
    let t := replaceParas find repl cs ww ps
    ({ p with runs := h.1 } :: t.1, h.2 + t.2)

/-- `TextHandler.replace_text`: run-by-run substitution over the whole
document; never raises, returns the accumulated count. -/
def replace_text (s : Engine) (find repl : Str)
    (case_sensitive whole_word : Bool) : Except Err Nat × Engine :=
  let r := replaceParas find repl case_sensitive whole_word s.paragraphs
  (.ok r.2, { s with paragraphs := r.1 })

/-- `RevisionHandler.add_revision`: validate the paragraph index, then
record the new pending revision under the next monotonic id. -/
def add_revision (s : Engine) (action : RevisionAction) (author : Str)
    (paragraph_index : Int) (original_content new_content : Option Str) :
    Except Err Revision × Engine :=
  if paragraph_index < 0 || (s.paragraphs.length : Int) ≤ paragraph_index then
    (.error (.validationError
      ("Paragraph index " ++ toString paragraph_index ++ " out of range")), s)
  else
    let revision : Revision :=
      { id := s.nextId
        action := action
        author := author
        paragraphIndex := paragraph_index.toNat
        originalContent := original_content
        newContent := new_content
        isAccepted := false
        isRejected := false
        createdAt := s.clock
        acceptedAt := none
        acceptedBy := none }
    (.ok revision,
      { s with revisions := s.revisions ++ [revision]
               nextId := s.nextId + 1
               clock := s.clock + 1 })

/-- `RevisionHandler.get_revision`: the first recorded revision with the
id, else `ValidationError`. -/
def get_revision (s : Engine) (revision_id : Nat) : Except Err Revision :=
  match s.revisions.find? (fun r => r.id == revision_id) with
  | some r => .ok r
  | none => .error (.validationError ("Revision not found: " ++ toString revision_id))

/-- `RevisionHandler.get_pending_revisions`: neither accepted nor
rejected. -/
def get_pending_revisions (s : Engine) : List Revision :=
  s.revisions.filter (fun r => !r.isAccepted && !r.isRejected)

/-- `RevisionHandler._apply_revision`: subscript the paragraph list with
the stored index (unguarded — a stale index raises `IndexError`), then
mutate the paragraph per the action; `if revision["new_content"]:` is a
Python truthiness test, so `None` and the empty string are skipped. -/
def apply_revision (s : Engine) (revision : Revision) : Except Err Unit × Engine :=
  match s.paragraphs[revision.paragraphIndex]? with
  | none => (.error .indexError, s)
  | some para =>
    match revision.action with
    | .insert =>
      match revision.newContent with
      | some c =>
        if c.isEmpty then (.ok (), s)
        else (.ok (), setPara s revision.paragraphIndex
          { para with runs := para.runs ++ [{ text := c }] })
      | none => (.ok (), s)
    | .delete =>
      (.ok (), setPara s revision.paragraphIndex { para with runs := [] })
    | .replace =>
      match revision.newContent with
      | some c =>
        if c.isEmpty then (.ok (), s)
        else (.ok (), setPara s revision.paragraphIndex
          { para with runs := [{ text := c }] })
      | none => (.ok (), s)
    | .format => (.ok (), s)
    | .move => (.ok (), s)

/-- `RevisionHandler.accept_revision`: look the revision up, refuse a
non-pending one, then stamp `is_accepted`, `accepted_at`, `accepted_by`
on the stored dictionary and only afterwards apply it to the document
(so an exception out of `_apply_revision` leaves the stamps in place). -/
def accept_revision (s : Engine) (revision_id : Nat)
    (accepted_by : Option Str) : Except Err Revision × Engine :=
  match get_revision s revision_id with
  | .error e => (.error e, s)
  | .ok revision =>
    if revision.isAccepted || revision.isRejected then
      (.error (.validationError "Revision has already been processed"), s)
    else
      let revision1 :=
        { revision with isAccepted := true
                        acceptedAt := some s.clock
                        acceptedBy := accepted_by }
      let revs := updateFirst (fun r => r.id == revision_id)
        (fun r =>
          { r with isAccepted := true
                   acceptedAt := some s.clock
                   acceptedBy := accepted_by }) s.revisions
      let s1 := { s with revisions := revs, clock := s.clock + 1 }
      match apply_revision s1 revision1 with
      | (.error e, s2) => (.error e, s2)
      | (.ok _, s2) => (.ok revision1, s2)

/-- `RevisionHandler.reject_revision`: same lookup and pending check,
stamps `is_rejected` plus the same `accepted_at`/`accepted_by` fields,
and never touches the document. -/
def reject_revision (s : Engine) (revision_id : Nat)
    (rejected_by : Option Str) : Except Err Revision × Engine :=
  match get_revision s revision_id with
  | .error e => (.error e, s)
  | .ok revision =>
    if revision.isAccepted || revision.isRejected then
      (.error (.validationError "Revision has already been processed"), s)
    else
      let revision1 :=
        { revision with isRejected := true
                        acceptedAt := some s.clock
                        acceptedBy := rejected_by }
      let revs := updateFirst (fun r => r.id == revision_id)
        (fun r =>
          { r with isRejected := true
                   acceptedAt := some s.clock
                   acceptedBy := rejected_by }) s.revisions
      (.ok revision1, { s with revisions := revs, clock := s.clock + 1 })

/-- The `for` loop of `accept_all_revisions` over the pending snapshot's
ids: `except ValidationError: continue` skips that item; any other
exception (the `IndexError` a stale index raises) propagates and aborts
the loop. -/
def acceptAllGo (accepted_by : Option Str) :
    List Nat → Engine → Nat → Except Err Nat × Engine
  | [], s, count => (.ok count, s)
  | id :: rest, s, count =>
    match accept_revision s id accepted_by with
    | (.ok _, s1) => acceptAllGo accepted_by rest s1 (count + 1)
    | (.error (.validationError _), s1) => acceptAllGo accepted_by rest s1 count
    | (.error .indexError, s1) => (.error .indexError, s1)

/-- `RevisionHandler.accept_all_revisions`. -/
def accept_all_revisions (s : Engine) (accepted_by : Option Str) :
    Except Err Nat × Engine :=
  acceptAllGo accepted_by ((get_pending_revisions s).map (fun r => r.id)) s 0

/-- The `for` loop of `reject_all_revisions`, same skipping policy. -/
def rejectAllGo (rejected_by : Option Str) :
    List Nat → Engine → Nat → Except Err Nat × Engine
  | [], s, count => (.ok count, s)
  | id :: rest, s, count =>
    match reject_revision s id rejected_by with
    | (.ok _, s1) => rejectAllGo rejected_by rest s1 (count + 1)
    | (.error (.validationError _), s1) => rejectAllGo rejected_by rest s1 count
    | (.error .indexError, s1) => (.error .indexError, s1)

/-- `RevisionHandler.reject_all_revisions`. -/
def reject_all_revisions (s : Engine) (rejected_by : Option Str) :
    Except Err Nat × Engine :=
  rejectAllGo rejected_by ((get_pending_revisions s).map (fun r => r.id)) s 0

/-- `TableHandler._validate_table_index`. -/
def validateTableIndex (s : Engine) (index : Int) : Except Err Unit :=
  if index < 0 || (s.tables.length : Int) ≤ index then
    .error (.validationError ("Table index " ++ toString index ++
      " out of range (0-" ++ toString ((s.tables.length : Int) - 1) ++ ")"))
  else .ok ()

/-- `TableHandler._validate_cell_indices` against a table's row and
column counts. -/
def validateCellIndices (t : Table) (row col : Int) : Except Err Unit :=
  if row < 0 || (t.grid.length : Int) ≤ row then
    .error (.validationError ("Row index " ++ toString row ++
      " out of range (0-" ++ toString ((t.grid.length : Int) - 1) ++ ")"))
  else if col < 0 || (t.cols : Int) ≤ col then
    .error (.validationError ("Column index " ++ toString col ++
      " out of range (0-" ++ toString ((t.cols : Int) - 1) ++ ")"))
  else .ok ()

/-- `TableHandler.merge_cells`: validate the table index and both cell
coordinates, then refuse an inverted range with `ValidationError`
before the library merge is issued (the merge itself, a python-docx
call, is modelled as recording the merged rectangle). -/
def merge_cells (s : Engine) (table_index start_row start_col end_row end_col : Int) :
    Except Err Unit × Engine :=
  match validateTableIndex s table_index with
  | .error e => (.error e, s)
  | .ok _ =>
    match s.tables[table_index.toNat]? with
    | none => (.error .indexError, s)
    | some table =>
      match validateCellIndices table start_row start_col with
      | .error e => (.error e, s)
      | .ok _ =>
        match validateCellIndices table end_row end_col with
        | .error e => (.error e, s)
        | .ok _ =>
          if start_row > end_row || start_col > end_col then
            (.error (.validationError "Invalid cell range for merge"), s)
          else
            let table1 := { table with merges := table.merges ++
              [(start_row.toNat, start_col.toNat, end_row.toNat, end_col.toNat)] }
            (.ok (), { s with tables := s.tables.set table_index.toNat table1 })

deriving instance DecidableEq for Except

/-- A one-paragraph document whose text is the whole-word search
scenario's. -/
def docCat : Engine :=
  { paragraphs := [{ runs := [{ text := str "cat category cat" }] }]
    tables := [], revisions := [], nextId := 0 }

/-- A paragraph made of the two runs of the run-boundary scenario. -/
def docFooBar : Engine :=
  { paragraphs := [{ runs := [{ text := str "foo" }, { text := str "bar" }] }]
    tables := [], revisions := [], nextId := 0 }

/-- One paragraph, used to stage revision scenarios. -/
def docHello : Engine :=
  { paragraphs := [{ runs := [{ text := str "Hello" }] }]
    tables := [], revisions := [], nextId := 0 }

/-- A pending replace revision anchored at paragraph 0, after which the
paragraph is deleted: the revision's anchor is stale. -/
def docStale : Engine :=
  (delete_paragraph
    (add_revision docHello .replace (str "alice") 0 none (some (str "X"))).2 0).2

/-- Two paragraphs with two pending replace revisions (ids 0 and 1,
anchored at paragraphs 1 and 0), after which paragraph 1 is deleted:
the first pending revision is stale, the second is fine. -/
def docTwoRevs : Engine :=
  let d0 : Engine :=
    { paragraphs := [{ runs := [{ text := str "A" }] },
                     { runs := [{ text := str "B" }] }]
      tables := [], revisions := [], nextId := 0 }
  let d1 := (add_revision d0 .replace (str "u") 1 none (some (str "X"))).2
  let d2 := (add_revision d1 .replace (str "u") 0 none (some (str "Y"))).2
  (delete_paragraph d2 1).2

/-- One paragraph "Old" with a pending replace revision whose
`new_content` is the empty string. -/
def docEmptyReplace : Engine :=
  let d0 : Engine :=
    { paragraphs := [{ runs := [{ text := str "Old" }] }]
      tables := [], revisions := [], nextId := 0 }
  (add_revision d0 .replace (str "u") 0 none (some [])).2

/-- One paragraph "A" (upper case), for the case-folding loss of the
default-settings double replace. -/
def docUpperA : Engine :=
  { paragraphs := [{ runs := [{ text := str "A" }] }]
    tables := [], revisions := [], nextId := 0 }

/-- One paragraph "abxba": replacing "x" by "aba" creates overlapping
occurrences of "aba" that the reverse replace consumes differently. -/
def docAbxba : Engine :=
  { paragraphs := [{ runs := [{ text := str "abxba" }] }]
    tables := [], revisions := [], nextId := 0 }

/-- One paragraph with the single run "abab": two disjoint occurrences
of "ab" inside one run. -/
def docAbab : Engine :=
  { paragraphs := [{ runs := [{ text := str "abab" }] }]
    tables := [], revisions := [], nextId := 0 }

/-- One paragraph "hello", for the double-replace witness. -/
def docLl : Engine :=
  { paragraphs := [{ runs := [{ text := str "hello" }] }]
    tables := [], revisions := [], nextId := 0 }

/-- A 3-row, 2-column table, for the merge-validation scenario. -/
def docGrid : Engine :=
  { paragraphs := []
    tables := [{ grid := [[str "a", str "b"], [str "c", str "d"], [str "e", str "f"]]
                 cols := 2 }]
    revisions := [], nextId := 0 }

/-- Two paragraphs "a", "b", for the insert witness. -/
def docTwo : Engine :=
  { paragraphs := [{ runs := [{ text := str "a" }] },
                   { runs := [{ text := str "b" }] }]
    tables := [], revisions := [], nextId := 0 }

/-- One paragraph "Hi" with a pending replace revision carrying
`new_content = "Yo"`. -/
def docHiYo : Engine :=
  let d0 : Engine :=
    { paragraphs := [{ runs := [{ text := str "Hi" }] }]
      tables := [], revisions := [], nextId := 0 }
  (add_revision d0 .replace (str "u") 0 none (some (str "Yo"))).2

/-- One paragraph with an already-accepted revision (accepted through
the engine itself), for the terminality witness. -/
def docProcessed : Engine :=
  (accept_revision docHiYo 0 none).2

/-- C1: the claim states that `find_text("cat", case_sensitive=True,
whole_word=True)` on the paragraph "cat category cat" matches at
offsets 0 and 14.  The code's offsets are 0 and 13: "cat " is 4
characters and "category" 8, so the final "cat" starts at 13.  The
claimed offset list [0, 14] is therefore not what the engine returns. -/
theorem c1_counterexample :
    (find_text docCat (str "cat") true true).map TextMatch.offset = [0, 13] ∧
    (find_text docCat (str "cat") true true).map TextMatch.offset ≠ [0, 14] := by
  decide

/-- C1 (amended): whole-word search on "cat category cat" returns
exactly two matches, at offsets 0 and 13, and no match at offset 4
(inside "category"). -/
theorem c1_whole_word_search :
    find_text docCat (str "cat") true true =
      [{ paragraph_index := 0, offset := 0, length := 3, text := str "cat" },
       { paragraph_index := 0, offset := 13, length := 3, text := str "cat" }] ∧
    (∀ m ∈ find_text docCat (str "cat") true true, m.offset ≠ 4) := by
  decide

/-- C2: accepting a pending revision whose paragraph anchor is stale
(the paragraph was deleted after recording) raises `IndexError` from
the unguarded subscript in `_apply_revision`, but only after the
revision has already been stamped accepted: the revision store is
mutated on an invalid reference, contradicting the
validate-before-mutate invariant.  The paragraph store itself is left
unchanged. -/
theorem c2_stale_accept_mutates_before_failing :
    docStale.revisions.map (fun r => (r.isAccepted, r.acceptedAt)) = [(false, none)] ∧
    (accept_revision docStale 0 none).1 = .error .indexError ∧
    (accept_revision docStale 0 none).2.revisions.map
      (fun r => (r.isAccepted, r.acceptedAt.isSome)) = [(true, true)] ∧
    (accept_revision docStale 0 none).2.paragraphs = docStale.paragraphs := by
  decide

/-- C4: a match spanning a run boundary is not found: on a paragraph
with runs "foo" and "bar", `replace_text("foobar", "X")` (default
settings) reports 0 replacements and leaves the document unchanged. -/
theorem c4_run_boundary_replace :
    (replace_text docFooBar (str "foobar") (str "X") false false).1 = .ok 0 ∧
    (replace_text docFooBar (str "foobar") (str "X") false false).2 = docFooBar := by
  decide

/-- C6: `accept_all_revisions` can raise.  With two pending revisions
of which the first has a stale paragraph anchor, the loop's
`except ValidationError` does not catch the `IndexError` raised while
applying the first one: the batch aborts, the first revision is left
stamped accepted, and the second pending revision is never processed. -/
theorem c6_accept_all_aborts_on_stale_anchor :
    (get_pending_revisions docTwoRevs).map Revision.id = [0, 1] ∧
    (accept_all_revisions docTwoRevs none).1 = .error .indexError ∧
    (accept_all_revisions docTwoRevs none).2.revisions.map
      (fun r => (r.id, r.isAccepted, r.isRejected)) =
      [(0, true, false), (1, false, false)] := by
  decide

/-- C7 counterexample: accepting a pending replace revision whose
`new_content` is the empty string succeeds but leaves the paragraph
text unchanged ("Old", not ""), because `_apply_revision` guards the
mutation with Python truthiness of `new_content`. -/
theorem c7_counterexample :
    (accept_revision docEmptyReplace 0 none).1.isOk = true ∧
    (accept_revision docEmptyReplace 0 none).2.paragraphs.map Paragraph.text =
      [str "Old"] ∧
    str "Old" ≠ ([] : Str) := by
  decide

/-- C8 counterexample: the double replace does not restore the
document.  With the default case-insensitive settings, replacing "a" by
"b" and back turns "A" into "a" (case folding is lossy); and even
case-sensitively, replacing "x" by "aba" and back turns "abxba" into
"xbx" when characters of the replacement occur in the original text
("a" and "aba" share no common substring and neither is empty). -/
theorem c8_counterexample :
    ((replace_text (replace_text docUpperA (str "a") (str "b") false false).2
        (str "b") (str "a") false false).2.paragraphs.map Paragraph.text =
      [str "a"] ∧
     (replace_text (replace_text docUpperA (str "a") (str "b") false false).2
        (str "b") (str "a") false false).2 ≠ docUpperA) ∧
    ((replace_text (replace_text docAbxba (str "x") (str "aba") true false).2
        (str "aba") (str "x") true false).2.paragraphs.map Paragraph.text =
      [str "xbx"] ∧
     (replace_text (replace_text docAbxba (str "x") (str "aba") true false).2
        (str "aba") (str "x") true false).2 ≠ docAbxba) := by
  decide

/-- C3: once a revision is no longer pending (`is_accepted` or
`is_rejected` set), any further `accept_revision` or `reject_revision`
on the same id fails with the InvalidState condition ("already
processed") and returns the engine state untouched — the status and the
`accepted_at`/`accepted_by` stamps are unchanged. -/
theorem c3_revision_terminality (s : Engine) (id : Nat) (rev : Revision)
    (b b' : Option Str)
    (h : get_revision s id = .ok rev)
    (hp : rev.isAccepted = true ∨ rev.isRejected = true) :
    accept_revision s id b =
      (.error (.validationError "Revision has already been processed"), s) ∧
    reject_revision s id b' =
      (.error (.validationError "Revision has already been processed"), s) := by
  have hb : (rev.isAccepted || rev.isRejected) = true := by
    rcases hp with h1 | h1 <;> simp [h1]
  constructor <;> simp [accept_revision, reject_revision, h, hb]

/-- C3 witness: on a document whose revision 0 was accepted through the
engine, a second accept and a reject both fail with InvalidState and
change nothing. -/
theorem c3_witness :
    accept_revision docProcessed 0 none =
      (.error (.validationError "Revision has already been processed"), docProcessed) ∧
    reject_revision docProcessed 0 (some (str "bob")) =
      (.error (.validationError "Revision has already been processed"), docProcessed) :=
  c3_revision_terminality docProcessed 0
    { id := 0, action := .replace, author := str "u", paragraphIndex := 0,
      originalContent := none, newContent := some (str "Yo"),
      isAccepted := true, isRejected := false, createdAt := 0,
      acceptedAt := some 1, acceptedBy := none }
    none (some (str "bob")) (by decide) (Or.inl (by decide))

/-- C9: `merge_cells` with a valid table index and in-range cell
coordinates but an inverted range (`start_row > end_row` or
`start_col > end_col`) fails with ValidationError and returns the
engine state untouched, so the table keeps its rows, columns and cells. -/
theorem c9_merge_validation (s : Engine) (ti sr sc er ec : Int) (t : Table)
    (hti0 : 0 ≤ ti) (hti1 : ti < (s.tables.length : Int))
    (hget : s.tables[ti.toNat]? = some t)
    (hsr0 : 0 ≤ sr) (hsr1 : sr < (t.grid.length : Int))
    (hsc0 : 0 ≤ sc) (hsc1 : sc < (t.cols : Int))
    (her0 : 0 ≤ er) (her1 : er < (t.grid.length : Int))
    (hec0 : 0 ≤ ec) (hec1 : ec < (t.cols : Int))
    (hrange : er < sr ∨ ec < sc) :
    merge_cells s ti sr sc er ec =
      (.error (.validationError "Invalid cell range for merge"), s) := by
  have h1 : (decide (ti < 0) || decide ((s.tables.length : Int) ≤ ti)) = false := by
    simp only [Bool.or_eq_false_iff, decide_eq_false_iff_not]; omega
  have h2 : (decide (sr < 0) || decide ((t.grid.length : Int) ≤ sr)) = false := by
    simp only [Bool.or_eq_false_iff, decide_eq_false_iff_not]; omega
  have h3 : (decide (sc < 0) || decide ((t.cols : Int) ≤ sc)) = false := by
    simp only [Bool.or_eq_false_iff, decide_eq_false_iff_not]; omega
  have h4 : (decide (er < 0) || decide ((t.grid.length : Int) ≤ er)) = false := by
    simp only [Bool.or_eq_false_iff, decide_eq_false_iff_not]; omega
  have h5 : (decide (ec < 0) || decide ((t.cols : Int) ≤ ec)) = false := by
    simp only [Bool.or_eq_false_iff, decide_eq_false_iff_not]; omega
  have h6 : (decide (er < sr) || decide (ec < sc)) = true := by
    rcases hrange with h | h <;> simp [h]
  simp only [merge_cells, validateTableIndex, validateCellIndices, h1, h2, h3, h4, h5,
    Bool.false_eq_true, if_false, hget, gt_iff_lt, h6, if_true]

/-- C9 witness: the spec's scenario — a 3x2 table, merge from (2,0)
to (0,1): start_row > end_row, so ValidationError and no change. -/
theorem c9_witness :
    merge_cells docGrid 0 2 0 0 1 =
      (.error (.validationError "Invalid cell range for merge"), docGrid) :=
  c9_merge_validation docGrid 0 2 0 0 1
    { grid := [[str "a", str "b"], [str "c", str "d"], [str "e", str "f"]], cols := 2 }
    (by decide) (by decide) (by decide) (by decide) (by decide) (by decide)
    (by decide) (by decide) (by decide) (by decide) (by decide) (Or.inl (by decide))

/-- The style and alignment application of `insert_paragraph` never
touches the runs. -/
theorem applyParaFmt_runs (p : Paragraph) (st : Option Str) (al : Option Alignment) :
    (applyParaFmt p st al).runs = p.runs := by
  unfold applyParaFmt
  rcases al with _ | a <;> by_cases h : truthyStr st <;> simp [h]

/-- Reading back a paragraph whose index is valid yields its text. -/
theorem get_paragraph_text_of (s : Engine) (i : Int) (h0 : 0 ≤ i)
    (h1 : i.toNat < s.paragraphs.length) {p : Paragraph} (txt : Str)
    (hp : s.paragraphs[i.toNat]? = some p) (ht : p.text = txt) :
    (get_paragraph s i).map ParagraphDTO.text = .ok txt := by
  have hg : (decide (i < 0) || decide ((s.paragraphs.length : Int) ≤ i)) = false := by
    simp only [Bool.or_eq_false_iff, decide_eq_false_iff_not]; omega
  simp [get_paragraph, hg, hp, Except.map, ht]

/-- C5: for an index in `[0, n]` (n the paragraph count),
`insert_paragraph` succeeds, returns the index, grows the document by
one, the paragraph read back at that index carries the inserted text,
paragraphs below the index are untouched and every paragraph previously
at `j ≥ index` now sits at `j + 1` unchanged; for an index outside
`[0, n]` it fails with the out-of-range ValidationError and the state
is unchanged. -/
theorem c5_insert_shift (s : Engine) (i : Int) (txt : Str)
    (st : Option Str) (al : Option Alignment) :
    (0 ≤ i → i ≤ (s.paragraphs.length : Int) →
      (insert_paragraph s i txt st al).1 = .ok i ∧
      (insert_paragraph s i txt st al).2.paragraphs.length = s.paragraphs.length + 1 ∧
      (get_paragraph (insert_paragraph s i txt st al).2 i).map ParagraphDTO.text =
        .ok txt ∧
      (∀ j : Nat, (j : Int) < i →
        (insert_paragraph s i txt st al).2.paragraphs[j]? = s.paragraphs[j]?) ∧
      (∀ j : Nat, i ≤ (j : Int) → j < s.paragraphs.length →
        (insert_paragraph s i txt st al).2.paragraphs[j + 1]? = s.paragraphs[j]?)) ∧
    ((i < 0 ∨ (s.paragraphs.length : Int) < i) →
      (insert_paragraph s i txt st al).2 = s ∧
      ∃ m, (insert_paragraph s i txt st al).1 = .error (.validationError m)) := by
  constructor
  · intro h0 h1
    have hg : (decide (i < 0) || decide ((s.paragraphs.length : Int) < i)) = false := by
      simp only [Bool.or_eq_false_iff, decide_eq_false_iff_not]; omega
    by_cases he : i = (s.paragraphs.length : Int)
    · -- append branch
      have hbe : (i == (s.paragraphs.length : Int)) = true := by
        rw [beq_iff_eq]; exact he
      have htn : i.toNat = s.paragraphs.length := by omega
      simp only [insert_paragraph, hg, Bool.false_eq_true, if_false, hbe, if_true,
        add_paragraph]
      refine ⟨?_, by simp, ?_, ?_, ?_⟩
      · simp only [List.length_append, List.length_cons, List.length_nil]
        congr 1
        push_cast
        omega
      · apply get_paragraph_text_of
        · exact h0
        · simp; omega
        · rw [htn, List.getElem?_append_right (Nat.le_refl _), Nat.sub_self]
          rfl
        · cases htxt : txt.isEmpty with
          | true =>
            have ht : txt = [] := List.isEmpty_iff.mp htxt
            simp [Paragraph.text, htxt, ht]
          | false => simp [Paragraph.text, htxt]
      · intro j hj
        exact List.getElem?_append_left (by omega)
      · intro j hj1 hj2
        omega
    · -- insert branch
      have hbe : (i == (s.paragraphs.length : Int)) = false := by
        rw [beq_eq_false_iff_ne]; exact he
      have hk : i.toNat < s.paragraphs.length := by omega
      have hkle : i.toNat ≤ s.paragraphs.length := Nat.le_of_lt hk
      have hsome : (s.paragraphs.insertIdx i.toNat
          { runs := [], style := none, alignment := none })[i.toNat]? =
          some { runs := [], style := none, alignment := none } := by
        rw [List.getElem?_eq_getElem (by rw [List.length_insertIdx _ _ hkle]; omega)]
        rw [List.getElem_insertIdx_self _ _ _ hkle]
      have hlen1 : (s.paragraphs.insertIdx i.toNat
          { runs := [], style := none, alignment := none }).length =
          s.paragraphs.length + 1 := List.length_insertIdx _ _ hkle
      simp only [insert_paragraph, hg, Bool.false_eq_true, if_false, hbe, hsome]
      refine ⟨by trivial, by simp [List.length_set, hlen1], ?_, ?_, ?_⟩
      · apply get_paragraph_text_of
        · exact h0
        · simp [List.length_set, hlen1]; omega
        · exact List.getElem?_set_self (by rw [hlen1]; omega)
        · simp [Paragraph.text, applyParaFmt_runs]
      · intro j hj
        have hjk : i.toNat ≠ j := by omega
        rw [List.getElem?_set_ne hjk]
        rw [List.getElem?_eq_getElem (l := s.paragraphs.insertIdx i.toNat
          { runs := [], style := none, alignment := none }) (by rw [hlen1]; omega)]
        rw [List.getElem?_eq_getElem (by omega : j < s.paragraphs.length)]
        congr 1
        exact List.getElem_insertIdx_of_lt _ _ _ _ (by omega) (by omega)
      · intro j hj1 hj2
        have hjk : i.toNat ≠ j + 1 := by omega
        rw [List.getElem?_set_ne hjk]
        obtain ⟨m, rfl⟩ : ∃ m, j = i.toNat + m := ⟨j - i.toNat, by omega⟩
        rw [List.getElem?_eq_getElem (l := s.paragraphs.insertIdx i.toNat
          { runs := [], style := none, alignment := none }) (by rw [hlen1]; omega)]
        rw [List.getElem?_eq_getElem hj2]
        congr 1
        exact List.getElem_insertIdx_add_succ _ _ _ _ hj2
  · intro hout
    have hg : (decide (i < 0) || decide ((s.paragraphs.length : Int) < i)) = true := by
      rcases hout with h | h <;> simp [h]
    simp only [insert_paragraph, hg, if_true]
    exact ⟨by trivial, _, by trivial⟩

/-- C5 witness: inserting "X" at index 1 of a two-paragraph document
returns index 1, the text reads back, the old paragraph 1 moved to
index 2, and an out-of-range insert at index 5 changes nothing. -/
theorem c5_witness :
    (insert_paragraph docTwo 1 (str "X") none none).1 = .ok 1 ∧
    (get_paragraph (insert_paragraph docTwo 1 (str "X") none none).2 1).map
      ParagraphDTO.text = .ok (str "X") ∧
    (insert_paragraph docTwo 1 (str "X") none none).2.paragraphs[2]? =
      docTwo.paragraphs[1]? ∧
    (insert_paragraph docTwo 5 (str "X") none none).2 = docTwo := by
  obtain ⟨hin, -, hget, -, hshift⟩ :=
    (c5_insert_shift docTwo 1 (str "X") none none).1 (by decide) (by decide)
  refine ⟨hin, hget, hshift 1 (by decide) (by decide), ?_⟩
  exact ((c5_insert_shift docTwo 5 (str "X") none none).2 (Or.inr (by decide))).1

/-- C7 (amended): accepting a pending replace revision with a valid
paragraph anchor and a non-empty `new_content` succeeds, returns the
stamped revision, and afterwards the paragraph at that index reads back
exactly `new_content` (the runs were cleared and one run inserted). -/
theorem c7_accept_applies_replace (s : Engine) (id : Nat) (b : Option Str)
    (rev : Revision) (content : Str)
    (h : get_revision s id = .ok rev)
    (hacc : rev.isAccepted = false) (hrej : rev.isRejected = false)
    (hact : rev.action = .replace)
    (hc : rev.newContent = some content)
    (hne : content ≠ [])
    (hidx : rev.paragraphIndex < s.paragraphs.length) :
    (accept_revision s id b).1 =
      .ok { rev with isAccepted := true, acceptedAt := some s.clock, acceptedBy := b } ∧
    (get_paragraph (accept_revision s id b).2 (rev.paragraphIndex : Int)).map
      ParagraphDTO.text = .ok content := by
  have hb : (rev.isAccepted || rev.isRejected) = false := by simp [hacc, hrej]
  have hemp : content.isEmpty = false := by
    cases content with
    | nil => exact absurd rfl hne
    | cons c cs => rfl
  have hsome : s.paragraphs[rev.paragraphIndex]? = some s.paragraphs[rev.paragraphIndex] :=
    List.getElem?_eq_getElem hidx
  simp only [accept_revision, h, hb, Bool.false_eq_true, if_false,
    apply_revision, hact, hc, hemp, hsome, setPara]
  constructor
  · trivial
  · have hlen : ((s.paragraphs.set rev.paragraphIndex
        { s.paragraphs[rev.paragraphIndex] with runs := [{ text := content }] }).length : Int)
        = (s.paragraphs.length : Int) := by simp
    simp only [get_paragraph, hlen]
    have hneg : (decide ((rev.paragraphIndex : Int) < 0) ||
        decide ((s.paragraphs.length : Int) ≤ (rev.paragraphIndex : Int))) = false := by
      simp only [Bool.or_eq_false_iff, decide_eq_false_iff_not]
      constructor
      · omega
      · exact_mod_cast Nat.not_le.mpr hidx
    simp only [hneg, Bool.false_eq_true, if_false, Int.toNat_natCast]
    have hset : (s.paragraphs.set rev.paragraphIndex
        { s.paragraphs[rev.paragraphIndex] with runs := [{ text := content }] })[rev.paragraphIndex]? =
        some { s.paragraphs[rev.paragraphIndex] with runs := [{ text := content }] } := by
      rw [List.getElem?_eq_getElem (by simp [hidx])]
      simp [List.getElem_set_self]
    simp only [hset, Except.map, Paragraph.text, List.map, List.flatten, List.append_nil]

/-- C7 witness: on a document with the paragraph "Hi" and a pending
replace revision carrying "Yo", accepting revision 0 makes the
paragraph read back "Yo". -/
theorem c7_witness :
    (get_paragraph (accept_revision docHiYo 0 none).2 0).map ParagraphDTO.text =
      .ok (str "Yo") :=
  (c7_accept_applies_replace docHiYo 0 none
    { id := 0, action := .replace, author := str "u", paragraphIndex := 0,
      originalContent := none, newContent := some (str "Yo"),
      isAccepted := false, isRejected := false, createdAt := 0,
      acceptedAt := none, acceptedBy := none }
    (str "Yo") (by decide) rfl rfl rfl rfl (by decide) (by decide)).2

/-- `strStartsWith` agrees with prefix decomposition. -/
theorem strStartsWith_iff (a s : Str) :
    strStartsWith a s = true ↔ ∃ r, s = a ++ r := by
  induction a generalizing s with
  | nil => simp [strStartsWith]
  | cons x xs ih =>
    cases s with
    | nil =>
      simp [strStartsWith]
    | cons y ys =>
      simp only [strStartsWith, Bool.and_eq_true, beq_iff_eq, ih, List.cons_append,
        List.cons.injEq]
      constructor
      · rintro ⟨rfl, r, rfl⟩
        exact ⟨r, rfl, rfl⟩
      · rintro ⟨r, rfl, rfl⟩
        exact ⟨rfl, r, rfl⟩

/-- Any two sufficient fuels give `pyReplaceF` the same value. -/
theorem pyReplaceF_stable (a b : Str) :
    ∀ f g s, s.length < f → s.length < g →
      pyReplaceF a b f s = pyReplaceF a b g s := by
  intro f
  induction f with
  | zero => intro g s hf; omega
  | succ f ih =>
    intro g s hf hg
    cases g with
    | zero => omega
    | succ g =>
      by_cases hae : a.isEmpty
      · cases s with
        | nil => simp [pyReplaceF, hae]
        | cons c rest =>
          simp only [pyReplaceF, hae, if_true]
          rw [ih g rest (by simp at hf; omega) (by simp at hg; omega)]
      · by_cases hsp : strStartsWith a s
        · have hlena : 0 < a.length := by
            cases a with
            | nil => simp at hae
            | cons x xs => simp
          obtain ⟨r, rfl⟩ := (strStartsWith_iff a s).mp hsp
          simp only [pyReplaceF, hae, hsp, if_true, if_false, Bool.false_eq_true]
          rw [ih g ((a ++ r).drop a.length)
            (by simp [List.length_drop] at hf ⊢; omega)
            (by simp [List.length_drop] at hg ⊢; omega)]
        · cases s with
          | nil => simp [pyReplaceF, hae, hsp]
          | cons c rest =>
            simp only [pyReplaceF, hae, hsp, if_false, Bool.false_eq_true]
            rw [ih g rest (by simp at hf; omega) (by simp at hg; omega)]

/-- `str.replace` on the empty string with a non-empty pattern. -/
theorem pyReplace_nil_of_ne (a b : Str) (ha : a.isEmpty = false) :
    pyReplace a b [] = [] := by
  have hsp : strStartsWith a [] = false := by
    cases a with
    | nil => simp at ha
    | cons x xs => rfl
  simp [pyReplace, pyReplaceF, ha, hsp]

/-- One scan step of `str.replace` at a matching position. -/
theorem pyReplace_matched (a b s : Str) (ha : a.isEmpty = false)
    (hp : strStartsWith a s = true) :
    pyReplace a b s = b ++ pyReplace a b (s.drop a.length) := by
  have hlena : 0 < a.length := by
    cases a with
    | nil => simp at ha
    | cons x xs => simp
  have hlens : a.length ≤ s.length := by
    obtain ⟨r, rfl⟩ := (strStartsWith_iff a s).mp hp
    simp
  have key : ∀ f, pyReplaceF a b (f + 1) s = b ++ pyReplaceF a b f (s.drop a.length) := by
    intro f
    simp only [pyReplaceF, ha, hp, if_true, if_false, Bool.false_eq_true]
  show pyReplaceF a b (s.length + 1) s = _
  rw [key s.length]
  congr 1
  exact pyReplaceF_stable a b s.length ((s.drop a.length).length + 1) (s.drop a.length)
    (by simp only [List.length_drop]; omega) (by omega)

/-- One scan step of `str.replace` at a non-matching position. -/
theorem pyReplace_unmatched (a b : Str) (c : Char) (rest : Str)
    (ha : a.isEmpty = false) (hp : strStartsWith a (c :: rest) = false) :
    pyReplace a b (c :: rest) = c :: pyReplace a b rest := by
  have key : ∀ f, pyReplaceF a b (f + 1) (c :: rest) = c :: pyReplaceF a b f rest := by
    intro f
    simp only [pyReplaceF, ha, hp, if_false, Bool.false_eq_true]
  show pyReplaceF a b ((c :: rest).length + 1) (c :: rest) = _
  rw [show (c :: rest).length + 1 = (rest.length + 1) + 1 by simp]
  rw [key (rest.length + 1)]
  rfl

/-- No containment means no match at the front. -/
theorem strContains_head (t a : Str) (h : strContains t a = false) :
    strStartsWith a t = false := by
  by_contra hc
  have hc2 : strStartsWith a t = true := by
    cases hx : strStartsWith a t with
    | true => rfl
    | false => exact absurd hx hc
  have : strContains t a = true := by
    unfold strContains
    rw [List.any_eq_true]
    exact ⟨0, by simp, by simpa using hc2⟩
  rw [this] at h
  exact absurd h (by simp)

/-- No containment passes to the tail. -/
theorem strContains_tail (c : Char) (rest a : Str)
    (h : strContains (c :: rest) a = false) :
    strContains rest a = false := by
  cases hx : strContains rest a with
  | false => rfl
  | true =>
    exfalso
    unfold strContains at hx h
    rw [List.any_eq_true] at hx
    obtain ⟨i, hi, hpi⟩ := hx
    rw [List.mem_range] at hi
    have : (List.range ((c :: rest).length + 1)).any
        (fun i => strStartsWith a ((c :: rest).drop i)) = true := by
      rw [List.any_eq_true]
      refine ⟨i + 1, ?_, ?_⟩
      · rw [List.mem_range]
        simp only [List.length_cons]
        omega
      · simpa [List.drop_succ_cons] using hpi
    rw [this] at h
    exact absurd h (by simp)

/-- A non-empty string whose characters never occur in `t` is not
contained in `t`. -/
theorem strContains_of_chars (t b : Str) (hb : b.isEmpty = false)
    (h : ∀ c ∈ t, c ∉ b) : strContains t b = false := by
  cases hx : strContains t b with
  | false => rfl
  | true =>
    exfalso
    unfold strContains at hx
    rw [List.any_eq_true] at hx
    obtain ⟨i, hi, hpi⟩ := hx
    obtain ⟨r, hr⟩ := (strStartsWith_iff b (t.drop i)).mp (by simpa using hpi)
    cases b with
    | nil => simp at hb
    | cons d bs =>
      have hdt : d ∈ t.drop i := by
        rw [hr]
        exact List.mem_append_left _ (List.mem_cons_self d bs)
      have hdt2 : d ∈ t := List.drop_subset i t hdt
      exact h d hdt2 (List.mem_cons_self d bs)

/-- Replacing a pattern that does not occur changes nothing. -/
theorem pyReplace_of_not_contains (a b t : Str) (ha : a.isEmpty = false)
    (h : strContains t a = false) : pyReplace a b t = t := by
  induction t with
  | nil => exact pyReplace_nil_of_ne a b ha
  | cons c rest ih =>
    rw [pyReplace_unmatched a b c rest ha (strContains_head _ _ h)]
    rw [ih (strContains_tail c rest a h)]

/-- Replacing `a` by `b` and then `b` by `a` restores a string none of
whose characters belong to `b`: every occurrence of `b` in the
intermediate string is an inserted copy, so the reverse greedy scan
consumes exactly those copies. -/
theorem pyReplace_roundtrip (a b : Str) (ha : a.isEmpty = false)
    (hb : b.isEmpty = false) :
    ∀ n t, t.length ≤ n → (∀ c ∈ t, c ∉ b) →
      pyReplace b a (pyReplace a b t) = t := by
  intro n
  induction n with
  | zero =>
    intro t hlen hchar
    have ht : t = [] := List.length_eq_zero.mp (Nat.le_zero.mp hlen)
    subst ht
    rw [pyReplace_nil_of_ne a b ha, pyReplace_nil_of_ne b a hb]
  | succ n ih =>
    intro t hlen hchar
    by_cases hp : strStartsWith a t
    · have hp2 : strStartsWith a t = true := hp
      have hlena : 0 < a.length := by
        cases a with
        | nil => simp at ha
        | cons x xs => simp
      obtain ⟨r, rfl⟩ := (strStartsWith_iff a t).mp hp2
      rw [pyReplace_matched a b _ ha hp2, List.drop_left]
      have hbp : strStartsWith b (b ++ pyReplace a b r) = true :=
        (strStartsWith_iff _ _).mpr ⟨pyReplace a b r, rfl⟩
      rw [pyReplace_matched b a _ hb hbp, List.drop_left]
      rw [ih r (by simp at hlen; omega)
        (fun c hc => hchar c (List.mem_append_right a hc))]
    · have hp2 : strStartsWith a t = false := by
        cases hx : strStartsWith a t with
        | true => exact absurd hx hp
        | false => rfl
      clear hp
      cases t with
      | nil => rw [pyReplace_nil_of_ne a b ha, pyReplace_nil_of_ne b a hb]
      | cons c rest =>
        rw [pyReplace_unmatched a b c rest ha hp2]
        have hcb : c ∉ b := hchar c (List.mem_cons_self c rest)
        have hbp : strStartsWith b (c :: pyReplace a b rest) = false := by
          cases b with
          | nil => simp at hb
          | cons d bs =>
            have hdc : (d == c) = false := by
              rw [beq_eq_false_iff_ne]
              intro hdc
              exact hcb (hdc ▸ List.mem_cons_self d bs)
            simp [strStartsWith, hdc]
        rw [pyReplace_unmatched b a c _ hb hbp]
        rw [ih rest (by simp at hlen; omega)
          (fun x hx => hchar x (List.mem_cons_of_mem c hx))]

/-- The run-level double replace of the case-sensitive branch is the
identity under the character condition. -/
theorem replaceRun_roundtrip (a b : Str) (ha : a.isEmpty = false)
    (hb : b.isEmpty = false) (ww ww' : Bool) (r : Run)
    (hchar : ∀ c ∈ r.text, c ∉ b) :
    (replaceRun b a true ww' (replaceRun a b true ww r).1).1 = r := by
  simp only [replaceRun, if_true]
  by_cases h : strContains r.text a
  · simp only [h, if_true]
    by_cases h2 : strContains (pyReplace a b r.text) b
    · simp only [h2, if_true]
      rw [pyReplace_roundtrip a b ha hb r.text.length r.text (Nat.le_refl _) hchar]
    · have h2f : strContains (pyReplace a b r.text) b = false := by
        cases hx : strContains (pyReplace a b r.text) b with
        | true => exact absurd hx h2
        | false => rfl
      simp only [h2f, Bool.false_eq_true, if_false]
      have hid : pyReplace b a (pyReplace a b r.text) = pyReplace a b r.text :=
        pyReplace_of_not_contains b a _ hb h2f
      have hrt : pyReplace b a (pyReplace a b r.text) = r.text :=
        pyReplace_roundtrip a b ha hb r.text.length r.text (Nat.le_refl _) hchar
      have : pyReplace a b r.text = r.text := hid.symm.trans hrt
      rw [this]
  · have hf : strContains r.text a = false := by
      cases hx : strContains r.text a with
      | true => exact absurd hx h
      | false => rfl
    have hfb : strContains r.text b = false := strContains_of_chars _ _ hb hchar
    simp only [hf, hfb, Bool.false_eq_true, if_false]

/-- Lifting the run-level round trip over a run list. -/
theorem replaceRuns_roundtrip (a b : Str) (ha : a.isEmpty = false)
    (hb : b.isEmpty = false) (ww ww' : Bool) (rs : List Run)
    (hchar : ∀ r ∈ rs, ∀ c ∈ r.text, c ∉ b) :
    (replaceRuns b a true ww' (replaceRuns a b true ww rs).1).1 = rs := by
  induction rs with
  | nil => rfl
  | cons r rs ih =>
    simp only [replaceRuns]
    rw [replaceRun_roundtrip a b ha hb ww ww' r
      (hchar r (List.mem_cons_self r rs))]
    rw [ih (fun x hx => hchar x (List.mem_cons_of_mem r hx))]

/-- Lifting the round trip over the paragraph list. -/
theorem replaceParas_roundtrip (a b : Str) (ha : a.isEmpty = false)
    (hb : b.isEmpty = false) (ww ww' : Bool) (ps : List Paragraph)
    (hchar : ∀ p ∈ ps, ∀ r ∈ p.runs, ∀ c ∈ r.text, c ∉ b) :
    (replaceParas b a true ww' (replaceParas a b true ww ps).1).1 = ps := by
  induction ps with
  | nil => rfl
  | cons p ps ih =>
    simp only [replaceParas]
    rw [replaceRuns_roundtrip a b ha hb ww ww' p.runs
      (hchar p (List.mem_cons_self p ps))]
    rw [ih (fun x hx => hchar x (List.mem_cons_of_mem p hx))]

/-- C8 (amended): with `case_sensitive=True`, for non-empty `a` and `b`
such that no character of `b` occurs in any run of the document,
`replace_text(a, b)` followed by `replace_text(b, a)` (same settings)
restores the engine state exactly. -/
theorem c8_replace_restores (s : Engine) (a b : Str) (ww : Bool)
    (ha : a ≠ []) (hb : b ≠ [])
    (hchar : ∀ p ∈ s.paragraphs, ∀ r ∈ p.runs, ∀ c ∈ r.text, c ∉ b) :
    (replace_text (replace_text s a b true ww).2 b a true ww).2 = s := by
  have ha' : a.isEmpty = false := by
    cases a with
    | nil => exact absurd rfl ha
    | cons x xs => rfl
  have hb' : b.isEmpty = false := by
    cases b with
    | nil => exact absurd rfl hb
    | cons x xs => rfl
  simp only [replace_text]
  have hrt := replaceParas_roundtrip a b ha' hb' ww ww s.paragraphs hchar
  rw [hrt]

/-- C8 witness: on the one-paragraph document "hello",
replacing "ll" by "XY" and back restores the document. -/
theorem c8_witness :
    (replace_text (replace_text docLl (str "ll") (str "XY") true false).2
      (str "XY") (str "ll") true false).2 = docLl :=
  c8_replace_restores docLl (str "ll") (str "XY") false (by decide) (by decide)
    (by decide)

/-- The substitution count of the case-insensitive scan equals the
number of positions it matches at. -/
theorem subnPosF_count (find repl text : Str) (ww : Bool) :
    ∀ fuel i, (subnPosF find repl text ww fuel i).2 =
      (ciOccPosF find text ww fuel i).length := by
  intro fuel
  induction fuel with
  | zero => intro i; rfl
  | succ fuel ih =>
    intro i
    by_cases hm : (!find.isEmpty && ciMatchesAt find text ww i) = true
    · simp only [subnPosF, ciOccPosF, hm, if_true, List.length_cons]
      rw [ih (i + find.length)]
    · have hmf : (!find.isEmpty && ciMatchesAt find text ww i) = false := by
        cases hx : (!find.isEmpty && ciMatchesAt find text ww i) with
        | true => exact absurd hx hm
        | false => rfl
      simp only [subnPosF, ciOccPosF, hmf, Bool.false_eq_true, if_false]
      cases hx : text[i]? with
      | some c =>
        have hi : i < text.length := by
          by_contra hni
          rw [List.getElem?_eq_none (by omega)] at hx
          exact Option.noConfusion hx
        simp only [hi, if_true, List.length_cons]
        exact ih (i + 1)
      | none =>
        have hi : ¬ i < text.length := by
          intro hlt
          rw [List.getElem?_eq_getElem hlt] at hx
          exact Option.noConfusion hx
        simp only [hi, if_false]
        rfl

/-- A scan whose pattern matches at no position finds nothing. -/
theorem ciOccPosF_nil_of_no_match (find text : Str) (ww : Bool)
    (h : ∀ i, strStartsWith (strLower find) ((strLower text).drop i) = false) :
    ∀ fuel i, ciOccPosF find text ww fuel i = [] := by
  intro fuel
  induction fuel with
  | zero => intro i; rfl
  | succ fuel ih =>
    intro i
    have hmf : (!find.isEmpty && ciMatchesAt find text ww i) = false := by
      simp only [ciMatchesAt, h i, Bool.false_and, Bool.and_false]
    simp only [ciOccPosF, hmf, Bool.false_eq_true, if_false]
    by_cases hi : i < text.length
    · simp only [hi, if_true]
      exact ih (i + 1)
    · simp only [hi, if_false]

/-- Non-containment gives a position-wise no-match guarantee. -/
theorem no_match_of_not_contains (t sub : Str) (h : strContains t sub = false) :
    ∀ i, strStartsWith sub (t.drop i) = false := by
  intro i
  cases hx : strStartsWith sub (t.drop i) with
  | false => rfl
  | true =>
    exfalso
    by_cases hi : i ≤ t.length
    · have : strContains t sub = true := by
        unfold strContains
        rw [List.any_eq_true]
        exact ⟨i, by rw [List.mem_range]; omega, by simpa using hx⟩
      rw [this] at h
      exact absurd h (by simp)
    · have hnil : t.drop i = [] := List.drop_eq_nil_of_le (by omega)
      rw [hnil] at hx
      have hsub : sub = [] := by
        cases sub with
        | nil => rfl
        | cons x xs => exact absurd hx (by simp [strStartsWith])
      have : strContains t sub = true := by
        unfold strContains
        rw [List.any_eq_true]
        refine ⟨0, by rw [List.mem_range]; omega, ?_⟩
        simp [hsub, strStartsWith]
      rw [this] at h
      exact absurd h (by simp)

/-- The case-insensitive branch counts exactly the individual
occurrences the scan replaces, also when the containment gate skips
the run (then both sides are zero). -/
theorem replaceRun_ci_count (find repl : Str) (ww : Bool) (r : Run) :
    (replaceRun find repl false ww r).2 = ciOccCount find ww r.text := by
  by_cases hg : strContains (strLower r.text) (strLower find) = true
  · simp only [replaceRun, Bool.false_eq_true, if_false, hg, if_true]
    exact subnPosF_count find repl r.text ww (r.text.length + 1) 0
  · have hgf : strContains (strLower r.text) (strLower find) = false := by
      cases hx : strContains (strLower r.text) (strLower find) with
      | true => exact absurd hx hg
      | false => rfl
    simp only [replaceRun, Bool.false_eq_true, if_false, hgf]
    unfold ciOccCount ciOccurrences
    rw [ciOccPosF_nil_of_no_match find r.text ww
      (no_match_of_not_contains _ _ hgf) (r.text.length + 1) 0]
    rfl

/-- The run loop's count is the sum of the per-run counts. -/
theorem replaceRuns_count (find repl : Str) (cs ww : Bool) (rs : List Run) :
    (replaceRuns find repl cs ww rs).2 =
      (rs.map (fun r => (replaceRun find repl cs ww r).2)).sum := by
  induction rs with
  | nil => rfl
  | cons r rs ih => simp only [replaceRuns, List.map, List.sum_cons, ih]

/-- The paragraph loop's count is the sum over paragraphs. -/
theorem replaceParas_count (find repl : Str) (cs ww : Bool) (ps : List Paragraph) :
    (replaceParas find repl cs ww ps).2 =
      (ps.map (fun p => (replaceRuns find repl cs ww p.runs).2)).sum := by
  induction ps with
  | nil => rfl
  | cons p ps ih => simp only [replaceParas, List.map, List.sum_cons, ih]

/-- Summing an indicator over a list counts the satisfying elements. -/
theorem sum_map_ite_eq_countP (p : Run → Bool) (rs : List Run) :
    (rs.map (fun r => if p r then 1 else 0)).sum = rs.countP p := by
  induction rs with
  | nil => rfl
  | cons r rs ih =>
    simp only [List.map, List.sum_cons, List.countP_cons, ih]
    by_cases hp : p r = true
    · simp [hp]; omega
    · have : p r = false := by
        cases hx : p r with
        | true => exact absurd hx hp
        | false => rfl
      simp [this]

/-- The case-sensitive branch never reads the whole-word flag. -/
theorem replaceRun_cs_ww (find repl : Str) (ww : Bool) (r : Run) :
    replaceRun find repl true ww r = replaceRun find repl true false r := rfl

/-- Whole-word irrelevance lifted over a run list. -/
theorem replaceRuns_cs_ww (find repl : Str) (ww : Bool) (rs : List Run) :
    replaceRuns find repl true ww rs = replaceRuns find repl true false rs := by
  induction rs with
  | nil => rfl
  | cons r rs ih => simp only [replaceRuns, ih, replaceRun_cs_ww]

/-- Whole-word irrelevance lifted over the paragraphs. -/
theorem replaceParas_cs_ww (find repl : Str) (ww : Bool) (ps : List Paragraph) :
    replaceParas find repl true ww ps = replaceParas find repl true false ps := by
  induction ps with
  | nil => rfl
  | cons p ps ih => simp only [replaceParas, ih, replaceRuns_cs_ww]

/-- C10: for a non-empty search string, (a) with `case_sensitive=True`
the result of `replace_text` (count and document) is independent of the
`whole_word` flag, (b) its count is the number of runs containing the
search string at least once, and (c) with `case_sensitive=False` the
count is the total number of individual occurrences the scan replaces
across all runs (word-boundary-filtered when `whole_word` is set). -/
theorem c10_replace_count (s : Engine) (find repl : Str) (_hf : find ≠ []) :
    (∀ ww, replace_text s find repl true ww = replace_text s find repl true false) ∧
    (∀ ww, (replace_text s find repl true ww).1 =
      .ok ((s.paragraphs.map (fun p => p.runs.countP
        (fun r => strContains r.text find))).sum)) ∧
    (∀ ww, (replace_text s find repl false ww).1 =
      .ok ((s.paragraphs.map (fun p =>
        (p.runs.map (fun r => ciOccCount find ww r.text)).sum)).sum)) := by
  refine ⟨?_, ?_, ?_⟩
  · intro ww
    simp only [replace_text, replaceParas_cs_ww]
  · intro ww
    simp only [replace_text, replaceParas_cs_ww, replaceParas_count,
      replaceRuns_count]
    congr 1
    congr 1
    congr 1
    funext p
    have : ∀ r : Run, (replaceRun find repl true false r).2 =
        if strContains r.text find then 1 else 0 := by
      intro r
      simp only [replaceRun, if_true]
      by_cases hg : strContains r.text find = true
      · simp [hg]
      · have : strContains r.text find = false := by
          cases hx : strContains r.text find with
          | true => exact absurd hx hg
          | false => rfl
        simp [this]
    simp only [this]
    exact sum_map_ite_eq_countP _ p.runs
  · intro ww
    simp only [replace_text, replaceParas_count, replaceRuns_count,
      replaceRun_ci_count]

/-- C10 witness: the single run "abab" holds two disjoint occurrences
of "ab"; case-sensitively the count is 1 while both occurrences are
replaced ("XX"), and case-insensitively the count is 2. -/
theorem c10_witness :
    (replace_text docAbab (str "ab") (str "X") true false).1 = .ok 1 ∧
    (replace_text docAbab (str "ab") (str "X") true false).2.paragraphs.map
      Paragraph.text = [str "XX"] ∧
    (replace_text docAbab (str "ab") (str "X") false false).1 = .ok 2 := by
  refine ⟨?_, by decide, ?_⟩
  · exact ((c10_replace_count docAbab (str "ab") (str "X")
      (by decide)).2.1 false).trans (by decide)
  · exact ((c10_replace_count docAbab (str "ab") (str "X")
      (by decide)).2.2 false).trans (by decide)
